import Mathlib

/-!
Verification of the qubes-g2g-report core logic.

The definitions below are a shallow embedding of the Python sources:
  - qubes_g2g_report/job.py        (class Job)
  - qubes_g2g_report/component.py  (class Component)
  - qubes_g2g_report/report_builder.py (class ReportBuilder)

Python dicts are embedded as insertion-ordered association lists with
replace-in-place update, matching dict assignment semantics.  Python
datetimes are embedded as integers (only their order matters here).
Remote I/O is abstracted: the GitLab project node becomes a function from
branch-node name to its pipeline node list, and the HTTP layer of the
builder-configuration fetch becomes an explicit result datatype.
-/

namespace G2G

/-- Modelled from the spec: the module qubes_g2g_report/enums/job_type.py is
not in the tree; the spec describes the stage enumeration as the closed set
BUILD, INSTALL, REPRO, UNKNOWN, looked up by (uppercased) member name. -/
inductive JobType where
  | BUILD
  | INSTALL
  | REPRO
  | UNKNOWN
deriving DecidableEq, Repr

/-- Modelled from the spec: the module qubes_g2g_report/enums/job_status.py is
not in the tree; the spec describes the status enumeration as the closed set
SUCCESS, FAILURE, UNKNOWN. -/
inductive JobStatus where
  | SUCCESS
  | FAILURE
  | UNKNOWN
deriving DecidableEq, Repr

/-- The raw GitLab job node, as accessed by qubes_g2g_report/job.py:
'name', 'detailedStatus'/'text', 'detailedStatus'/'detailsPath', 'createdAt'
(embedded as an integer timestamp: only comparison matters). -/
structure JobNode where
  name : String
  statusText : String
  createdAt : Int
  detailsPath : String
deriving DecidableEq, Repr

/-- Python str.split(sep) for a one-character separator, on the character
list of the string: splitting the empty string gives [[]], and separators
at the ends produce empty segments, exactly as in Python. -/
def splitOnChar (sep : Char) : List Char → List (List Char)
  | [] => [[]]
  | c :: rest =>
    if c = sep then [] :: splitOnChar sep rest
    else
      match splitOnChar sep rest with
      | [] => [[c]]
      | h :: t => (c :: h) :: t

/-- Python name.split(":") as a list of strings. -/
def splitColon (s : String) : List String :=
  (splitOnChar ':' s.data).map fun l => ⟨l⟩

/-- Python str.lower() (the inputs concerned are ASCII). -/
def pyLower (s : String) : String :=
  ⟨s.data.map Char.toLower⟩

/-- Python str.upper() (the inputs concerned are ASCII). -/
def pyUpper (s : String) : String :=
  ⟨s.data.map Char.toUpper⟩

/-- Python Enum lookup JobType[s]: some member when s names a member,
none otherwise (KeyError). -/
def jobTypeOfName (s : String) : Option JobType :=
  if s = "BUILD" then some JobType.BUILD
  else if s = "INSTALL" then some JobType.INSTALL
  else if s = "REPRO" then some JobType.REPRO
  else if s = "UNKNOWN" then some JobType.UNKNOWN
  else none

/-- Job.type (job.py): JobType[self.name.split(":")[1].upper()], with
KeyError/IndexError mapped to JobType.UNKNOWN. -/
def JobNode.jobType (j : JobNode) : JobType :=
  match (splitColon j.name)[1]? with
  | none => JobType.UNKNOWN
  | some seg => (jobTypeOfName (pyUpper seg)).getD JobType.UNKNOWN

/-- Python str.removeprefix("r"): drop "r" once from the front if present. -/
def removeRUnits (l : List Char) : List Char :=
  match l with
  | [] => []
  | c :: rest => if c = 'r' then rest else c :: rest

/-- Job.release (job.py): self.name.split(":")[0].removeprefix("r").
Segment 0 of a Python split always exists, as does the head of
splitColon, so the getD default is never taken. -/
def JobNode.release (j : JobNode) : String :=
  ⟨removeRUnits (((splitColon j.name)[0]?).getD "").data⟩

/-- Job.distribution (job.py): self.name.split(":")[2], with IndexError
mapped to None. -/
def JobNode.distribution (j : JobNode) : Option String :=
  (splitColon j.name)[2]?

/-- Job.status (job.py): lower-cased detailedStatus text, matched against
two fixed lists, everything else UNKNOWN. -/
def statusOfText (t : String) : JobStatus :=
  let s := pyLower t
  if s = "failed" ∨ s = "canceled" ∨ s = "skipped" then JobStatus.FAILURE
  else if s = "success" ∨ s = "passed" then JobStatus.SUCCESS
  else JobStatus.UNKNOWN

/-- Job.status applied to a job node. -/
def JobNode.status (j : JobNode) : JobStatus :=
  statusOfText j.statusText

example : JobNode.jobType { name := "r4.2:build:fedora-40", statusText := "success", createdAt := 0, detailsPath := "" } = JobType.BUILD := by decide

example : JobNode.release { name := "r4.2:build:fedora-40", statusText := "success", createdAt := 0, detailsPath := "" } = "4.2" := by decide

example : JobNode.distribution { name := "r4.2:build:fedora-40", statusText := "success", createdAt := 0, detailsPath := "" } = some "fedora-40" := by decide

example : statusOfText "Passed" = JobStatus.SUCCESS := by decide

/-! ## Association lists with Python dict semantics

A Python dict is embedded as an insertion-ordered association list with
unique keys.  Assignment d[k] = v replaces the value in place when the key
is present and appends otherwise; lookup returns the first (hence only)
binding. -/

/-- Python d.get(k): first binding for k, none when absent. -/
def lookupA {K V : Type} [DecidableEq K] : List (K × V) → K → Option V
  | [], _ => none
  | (k', v) :: rest, k => if k' = k then some v else lookupA rest k

/-- Python d[k] = v: replace in place or append. -/
def updA {K V : Type} [DecidableEq K] : List (K × V) → K → V → List (K × V)
  | [], k, v => [(k, v)]
  | (k', v') :: rest, k, v =>
    if k' = k then (k, v) :: rest else (k', v') :: updA rest k v

/-- Two-level dict update: d.setdefault(a, dict()); d[a][b] = v. -/
def upd2 {A B C : Type} [DecidableEq A] [DecidableEq B] :
    List (A × List (B × C)) → A → B → C → List (A × List (B × C))
  | [], a, b, v => [(a, [(b, v)])]
  | (a', inner) :: rest, a, b, v =>
    if a' = a then (a, updA inner b v) :: rest
    else (a', inner) :: upd2 rest a b v

/-- Two-level dict lookup. -/
def look2 {A B C : Type} [DecidableEq A] [DecidableEq B]
    (m : List (A × List (B × C))) (a : A) (b : B) : Option C :=
  (lookupA m a).bind fun inner => lookupA inner b

theorem lookupA_updA_self {K V : Type} [DecidableEq K]
    (l : List (K × V)) (k : K) (v : V) :
    lookupA (updA l k v) k = some v := by
  induction l with
  | nil => simp [updA, lookupA]
  | cons p rest ih =>
    obtain ⟨k0, v0⟩ := p
    by_cases h : k0 = k
    · simp [updA, h, lookupA]
    · simp [updA, h, lookupA, ih]

theorem lookupA_updA_ne {K V : Type} [DecidableEq K]
    (l : List (K × V)) (k k' : K) (v : V) (h : k' ≠ k) :
    lookupA (updA l k v) k' = lookupA l k' := by
  induction l with
  | nil => simp [updA, lookupA, Ne.symm h]
  | cons p rest ih =>
    obtain ⟨k0, v0⟩ := p
    by_cases hk : k0 = k
    · subst hk
      simp [updA, lookupA, Ne.symm h]
    · simp [updA, hk, lookupA, ih]

theorem look2_upd2_self {A B C : Type} [DecidableEq A] [DecidableEq B]
    (m : List (A × List (B × C))) (a : A) (b : B) (v : C) :
    look2 (upd2 m a b v) a b = some v := by
  induction m with
  | nil => simp [upd2, look2, lookupA, lookupA_updA_self]
  | cons p rest ih =>
    obtain ⟨a0, inner⟩ := p
    by_cases h : a0 = a
    · simp [upd2, h, look2, lookupA, lookupA_updA_self]
    · simpa [upd2, h, look2, lookupA] using ih

theorem look2_upd2_ne {A B C : Type} [DecidableEq A] [DecidableEq B]
    (m : List (A × List (B × C))) (a a' : A) (b b' : B) (v : C)
    (h : a' ≠ a ∨ b' ≠ b) :
    look2 (upd2 m a b v) a' b' = look2 m a' b' := by
  induction m with
  | nil =>
    by_cases ha : a = a'
    · have hb : b' ≠ b := by
        rcases h with h | h
        · exact absurd ha.symm h
        · exact h
      subst ha
      simp [upd2, look2, lookupA, Ne.symm hb]
    · simp [upd2, look2, lookupA, ha]
  | cons p rest ih =>
    obtain ⟨a0, inner⟩ := p
    by_cases hk : a0 = a
    · subst hk
      by_cases ha : a0 = a'
      · subst ha
        have hb : b' ≠ b := by
          rcases h with h | h
          · exact absurd rfl h
          · exact h
        simp [upd2, look2, lookupA, lookupA_updA_ne _ _ _ _ hb]
      · simp [upd2, look2, lookupA, ha]
    · by_cases ha : a0 = a'
      · subst ha
        simp [upd2, hk, look2, lookupA]
      · simpa [upd2, hk, look2, lookupA, ha] using ih

/-! ## Component (qubes_g2g_report/component.py)

The GitLab project node embedding: 'name' plus, for each branch-node name
('current', 'next', 'main', or an on-demand queried branch), the pipeline
node list of that branch.  The on-demand single-branch query of
_query_branch_pipelines is abstracted into the same mapping, so the
function models where each branch's data comes from uniformly; the
re.sub alias cleaning the source applies to a queried branch's response
key is part of that wire aliasing and is the identity on the three
embedded names. -/

/-- One pipeline node: its list of job nodes (the 'ref' stored on each Job
by the source is never read downstream and is omitted). -/
structure PipelineNode where
  jobs : List JobNode

/-- A component: project name and per-branch pipeline nodes. -/
structure Component where
  cname : String
  branches : String → List PipelineNode

/-- Component._get_branch_pipeline_jobs: the job nodes of the most recent
pipeline of the branch, none when the branch has no pipeline node. -/
def Component.getBranchPipelineJobs (c : Component) (b : String) :
    Option (List JobNode) :=
  match c.branches b with
  | [] => none
  | p :: _ => some p.jobs

/-- Component._get_pipeline_jobs: the named branch, falling back to 'main'
when the named branch yielded None. -/
def Component.getPipelineJobs (c : Component) (b : String) :
    Option (List JobNode) :=
  match c.getBranchPipelineJobs b with
  | some js => some js
  | none => c.getBranchPipelineJobs "main"

/-- The per-component builder-configuration value: None (YAML null or a
missing entry) or a dict of string keys, possibly holding 'branch'. -/
abbrev CfgVal := Option (List (String × String))

/-- Component.get_current_release_pipeline: use the configured branch when
the configuration is a truthy dict containing 'branch', else 'current'. -/
def Component.getCurrentReleasePipeline (c : Component) (bc : CfgVal) :
    Option (List JobNode) :=
  match bc with
  | some l =>
    match lookupA l "branch" with
    | some b => c.getPipelineJobs b
    | none => c.getPipelineJobs "current"
  | none => c.getPipelineJobs "current"

/-- Component.get_next_release_pipeline: same with 'next'. -/
def Component.getNextReleasePipeline (c : Component) (bc : CfgVal) :
    Option (List JobNode) :=
  match bc with
  | some l =>
    match lookupA l "branch" with
    | some b => c.getPipelineJobs b
    | none => c.getPipelineJobs "next"
  | none => c.getPipelineJobs "next"

/-- The filter of Component._get_release_jobs: job.type in
[BUILD, INSTALL, REPRO] and job.release == release_number. -/
def keepJob (releaseNumber : String) (j : JobNode) : Bool :=
  (j.jobType == JobType.BUILD || j.jobType == JobType.INSTALL
    || j.jobType == JobType.REPRO)
  && (j.release == releaseNumber)

/-- The nested dict built by Component._get_release_jobs:
distribution (None possible) to stage to job node. -/
abbrev DistroMap := List (Option String × List (JobType × JobNode))

/-- Component._get_release_jobs: keep matching jobs and insert them at
(distribution, stage); dict assignment overwrites. -/
def getReleaseJobs (pipelineJobs : Option (List JobNode))
    (releaseNumber : String) : DistroMap :=
  match pipelineJobs with
  | none => []
  | some jobs =>
    jobs.foldl
      (fun m j =>
        if keepJob releaseNumber j then upd2 m j.distribution j.jobType j
        else m)
      []

/-- Component.get_current_release_jobs. -/
def Component.getCurrentReleaseJobs (c : Component) (releaseNumber : String)
    (bc : CfgVal) : DistroMap :=
  getReleaseJobs (c.getCurrentReleasePipeline bc) releaseNumber

/-- Component.get_next_release_jobs. -/
def Component.getNextReleaseJobs (c : Component) (releaseNumber : String)
    (bc : CfgVal) : DistroMap :=
  getReleaseJobs (c.getNextReleasePipeline bc) releaseNumber

/-- The full filter deciding whether a job lands at key (d, t). -/
def keepAt (releaseNumber : String) (d : Option String) (t : JobType)
    (j : JobNode) : Bool :=
  keepJob releaseNumber j && (j.distribution == d) && (j.jobType == t)

/-- The (d, t) entry of the fold of _get_release_jobs over any initial
dict: the last job of the input that passes the filter at (d, t), the
initial entry when none does. -/
theorem look2_foldl_insert (rel : String) (d : Option String) (t : JobType) :
    ∀ (jobs : List JobNode) (m : DistroMap),
      look2
        (jobs.foldl
          (fun m j =>
            if keepJob rel j then upd2 m j.distribution j.jobType j else m)
          m)
        d t
      = ((jobs.filter (keepAt rel d t)).getLast?).elim (look2 m d t) some := by
  intro jobs
  induction jobs with
  | nil => intro m; simp
  | cons j rest ih =>
    intro m
    rw [List.foldl_cons, ih]
    rcases hf : rest.filter (keepAt rel d t) with _ | ⟨k, ks⟩
    · by_cases hp : keepAt rel d t j = true
      · have h3 := hp
        simp only [keepAt, Bool.and_eq_true, beq_iff_eq] at h3
        obtain ⟨⟨hkeep, hd⟩, ht⟩ := h3
        subst hd
        subst ht
        simp [List.filter_cons, hp, hf, hkeep, look2_upd2_self]
      · have hp' : keepAt rel d t j = false := by simpa using hp
        by_cases hkeep : keepJob rel j = true
        · have hne' : d ≠ j.distribution ∨ t ≠ j.jobType := by
            by_cases hdd : j.distribution = d
            · by_cases htt : j.jobType = t
              · exact absurd (by simp [keepAt, hkeep, hdd, htt]) hp
              · exact Or.inr (Ne.symm htt)
            · exact Or.inl (Ne.symm hdd)
          simp [List.filter_cons, hp', hf, hkeep,
            look2_upd2_ne _ _ _ _ _ _ hne']
        · have hkeep' : keepJob rel j = false := by simpa using hkeep
          simp [List.filter_cons, hp', hf, hkeep']
    · obtain ⟨x, hx⟩ : ∃ x, (k :: ks).getLast? = some x :=
        ⟨(k :: ks).getLast (by simp), List.getLast?_eq_getLast _ (by simp)⟩
      by_cases hp : keepAt rel d t j = true <;>
        simp [List.filter_cons, hp, hf, hx]

/-- The retained record of _get_release_jobs at any (distribution, stage):
the last job in pipeline order that has that distribution and stage, a
stage in {BUILD, INSTALL, REPRO} and the requested release. -/
theorem getReleaseJobs_look2 (jobs : List JobNode) (rel : String)
    (d : Option String) (t : JobType) :
    look2 (getReleaseJobs (some jobs) rel) d t
      = (jobs.filter (keepAt rel d t)).getLast? := by
  rw [getReleaseJobs, look2_foldl_insert]
  rcases (jobs.filter (keepAt rel d t)).getLast? with _ | k <;>
    simp [look2, lookupA]

/-- Component.short_name (qubes_g2g_report/component.py):
self.name.removeprefix('qubes-'), on the character list: drop the six
prefix characters when they start the list, otherwise leave it unchanged.
(The historical variant src/component.py instead uses lstrip('qubes-'),
a character-set strip; the spec explicitly follows this final variant.) -/
def removeQubesDash (l : List Char) : List Char :=
  if "qubes-".data.isPrefixOf l then l.drop 6 else l

/-- Component.short_name. -/
def Component.shortName (c : Component) : String :=
  ⟨removeQubesDash c.cname.data⟩

/-! ## Claim theorems on the job parser and resolver -/

/-- The condition named by C1, from the spec sentence: the name splits on
':' into exactly 3 non-empty segments. -/
def splitsIntoThreeNonEmptySegments (s : String) : Bool :=
  ((splitColon s).length == 3) && (splitColon s).all fun seg => !(seg == "")

/-- A job of C1's counterexample: four segments, yet parsed as BUILD. -/
def c1Job : JobNode :=
  { name := "r4.2:build:fedora:x", statusText := "success", createdAt := 0,
    detailsPath := "" }

/-- C1 counterexample: the job name "r4.2:build:fedora:x" does not split
into exactly 3 non-empty segments, yet its parsed stage is BUILD and the
resolver keeps it for release "4.2" under distribution "fedora" — the
claimed invariant (stage UNKNOWN and exclusion) fails. -/
theorem c1_not_excluded_counterexample :
    splitsIntoThreeNonEmptySegments c1Job.name = false ∧
    c1Job.jobType = JobType.BUILD ∧
    look2 (getReleaseJobs (some [c1Job]) "4.2") (some "fedora") JobType.BUILD
      = some c1Job := by
  decide

/-- Whether the second ':'-segment of the name exists and, uppercased,
names one of the three kept stages. -/
def hasKeptStageSegment (name : String) : Bool :=
  match (splitColon name)[1]? with
  | none => false
  | some seg =>
    (pyUpper seg == "BUILD") || (pyUpper seg == "INSTALL")
      || (pyUpper seg == "REPRO")

/-- C1 amended: for every job whose raw name does not split on ':' into at
least two segments with the second segment case-insensitively naming
build, install or repro, the parsed stage is UNKNOWN and the job is
excluded from the resolver's output mapping for every requested release
number; in particular such a job is never classified as BUILD, INSTALL, or
REPRO. -/
theorem c1_unrecognized_stage_excluded (j : JobNode)
    (h : hasKeptStageSegment j.name = false) :
    j.jobType = JobType.UNKNOWN ∧
    ∀ (jobs : List JobNode) (rel : String) (d : Option String) (t : JobType),
      look2 (getReleaseJobs (some jobs) rel) d t ≠ some j := by
  have hty : j.jobType = JobType.UNKNOWN := by
    rw [JobNode.jobType]
    rcases hseg : (splitColon j.name)[1]? with _ | seg
    · rfl
    · rw [hasKeptStageSegment, hseg] at h
      simp only [Bool.or_eq_false_iff, beq_eq_false_iff_ne, ne_eq] at h
      obtain ⟨⟨h1, h2⟩, h3⟩ := h
      by_cases hu : pyUpper seg = "UNKNOWN" <;>
        simp [jobTypeOfName, h1, h2, h3, hu]
  refine ⟨hty, ?_⟩
  intro jobs rel d t hcontra
  rw [getReleaseJobs_look2] at hcontra
  have hmem := List.mem_of_getLast?_eq_some hcontra
  rw [List.mem_filter] at hmem
  have hkeep := hmem.2
  simp [keepAt, keepJob, hty] at hkeep

/-- A colon-free job name for the C1 witness. -/
def c1WitnessJob : JobNode :=
  { name := "foo", statusText := "success", createdAt := 0,
    detailsPath := "" }

/-- Witness of the amended C1 at the colon-free name "foo". -/
theorem c1_unrecognized_stage_excluded_witness :
    hasKeptStageSegment c1WitnessJob.name = false ∧
    c1WitnessJob.jobType = JobType.UNKNOWN ∧
    look2 (getReleaseJobs (some [c1WitnessJob]) "4.2") none JobType.BUILD
      ≠ some c1WitnessJob := by
  have h := c1_unrecognized_stage_excluded c1WitnessJob (by decide)
  exact ⟨by decide, h.1, h.2 [c1WitnessJob] "4.2" none JobType.BUILD⟩

/-- C4: the resolver's retained record at every (distribution, stage) pair
is exactly the last job of the pipeline job list whose parsed stage is in
{BUILD, INSTALL, REPRO}, whose parsed release equals the requested number
(string equality), and whose parsed (distribution, stage) is that pair:
kept iff the filter passes, grouped by distribution then stage, at most
one record per pair, a later duplicate overwriting an earlier one. -/
theorem c4_keep_group_last_wins (jobs : List JobNode) (rel : String)
    (d : Option String) (t : JobType) :
    look2 (getReleaseJobs (some jobs) rel) d t
      = (jobs.filter fun j =>
          (j.jobType == JobType.BUILD || j.jobType == JobType.INSTALL
            || j.jobType == JobType.REPRO)
          && (j.release == rel) && (j.distribution == d)
          && (j.jobType == t)).getLast? :=
  getReleaseJobs_look2 jobs rel d t

/-- C5: the status-text mapping is a total function: case-insensitively,
failed/canceled/skipped map to FAILURE, success/passed to SUCCESS, and
every other input — including the seven in-flight GitLab states — to
UNKNOWN.  (Totality itself is inherent: statusOfText is a function,
it never fails.) -/
theorem c5_status_mapping_total (t : String) :
    (statusOfText t = JobStatus.FAILURE ↔
      pyLower t = "failed" ∨ pyLower t = "canceled" ∨ pyLower t = "skipped") ∧
    (statusOfText t = JobStatus.SUCCESS ↔
      pyLower t = "success" ∨ pyLower t = "passed") ∧
    (statusOfText t = JobStatus.UNKNOWN ↔
      ¬(pyLower t = "failed" ∨ pyLower t = "canceled" ∨ pyLower t = "skipped")
      ∧ ¬(pyLower t = "success" ∨ pyLower t = "passed")) ∧
    (["created", "waiting_for_resource", "preparing", "pending", "running",
      "manual", "scheduled"].all
        fun s => decide (statusOfText s = JobStatus.UNKNOWN)) = true := by
  refine ⟨?_, ?_, ?_, by decide⟩ <;>
  · by_cases h1 :
        pyLower t = "failed" ∨ pyLower t = "canceled" ∨ pyLower t = "skipped"
    · rcases h1 with h | h | h <;> simp [statusOfText, h]
    · by_cases h2 : pyLower t = "success" ∨ pyLower t = "passed"
      · rcases h2 with h | h <;> simp [statusOfText, h]
      · simp [statusOfText, h1, h2]

/-- C7: shortName removes the known prefix at most once, only at the
front: appending any remainder to the prefix strips exactly the prefix, a
name not starting with the prefix is unchanged, and in particular
'qubes-foo-qubes' maps to 'foo-qubes' (the trailing occurrence of the
prefix letters is kept). -/
theorem c7_short_name_strip_once :
    (∀ (rest : String) (br : String → List PipelineNode),
      Component.shortName { cname := "qubes-" ++ rest, branches := br }
        = rest) ∧
    (∀ (n : String) (br : String → List PipelineNode),
      "qubes-".data.isPrefixOf n.data = false →
      Component.shortName { cname := n, branches := br } = n) ∧
    (∀ br : String → List PipelineNode,
      Component.shortName { cname := "qubes-foo-qubes", branches := br }
        = "foo-qubes") := by
  refine ⟨?_, ?_, ?_⟩
  · intro rest br
    apply String.ext
    show removeQubesDash ("qubes-" ++ rest).data = rest.data
    rw [String.data_append, removeQubesDash]
    have hpre : "qubes-".data.isPrefixOf ("qubes-".data ++ rest.data) = true := by
      rw [List.isPrefixOf_iff_prefix]
      exact ⟨rest.data, rfl⟩
    rw [if_pos hpre]
    exact List.drop_left "qubes-".data rest.data
  · intro n br h
    apply String.ext
    show removeQubesDash n.data = n.data
    rw [removeQubesDash, h]
    simp
  · intro br
    apply String.ext
    show removeQubesDash "qubes-foo-qubes".data = "foo-qubes".data
    decide

/-- Witness of C7's conditional part at the unprefixed name "core-agent". -/
theorem c7_short_name_strip_once_witness :
    "qubes-".data.isPrefixOf "core-agent".data = false ∧
    Component.shortName
      { cname := "core-agent", branches := fun _ => [] } = "core-agent" :=
  ⟨by decide,
    c7_short_name_strip_once.2.1 "core-agent" (fun _ => []) (by decide)⟩

/-- The single job of the C2 counterexample component's main branch. -/
def c2MainJob : JobNode :=
  { name := "r4.2:build:fedora-40", statusText := "success", createdAt := 0,
    detailsPath := "" }

/-- A component whose 'current' branch has no pipeline node while 'main'
has one. -/
def c2Component : Component :=
  { cname := "qubes-demo",
    branches := fun b => if b = "main" then [{ jobs := [c2MainJob] }] else [] }

/-- C2 counterexample: with no branch override, the current-release track
does not read only the current-release branch: with zero pipeline nodes on
'current' it falls back to 'main' and returns main's jobs. -/
theorem c2_current_fallback_counterexample :
    c2Component.branches "current" = [] ∧
    c2Component.getCurrentReleasePipeline none = some [c2MainJob] := by
  constructor
  · rfl
  · rfl

/-- The branch-node name the resolver tries first: the configured override
when the configuration is a dict containing 'branch', else the track's
own branch node. -/
def selectedBranch (trackBranch : String) (bc : CfgVal) : String :=
  match bc with
  | some l => (lookupA l "branch").getD trackBranch
  | none => trackBranch

/-- C2 amended: for both tracks the resolver reads the selected branch
(the configured override when present, which takes precedence and is
passed verbatim, else 'current' resp. 'next'): the latest pipeline of that
branch when it has at least one pipeline node, and otherwise the latest
pipeline of the trunk branch 'main' — the current track falls back to
'main' exactly like the next track. -/
theorem c2_branch_selection (c : Component) (bc : CfgVal) :
    (c.getCurrentReleasePipeline bc =
      match c.branches (selectedBranch "current" bc) with
      | p :: _ => some p.jobs
      | [] =>
        match c.branches "main" with
        | q :: _ => some q.jobs
        | [] => none) ∧
    (c.getNextReleasePipeline bc =
      match c.branches (selectedBranch "next" bc) with
      | p :: _ => some p.jobs
      | [] =>
        match c.branches "main" with
        | q :: _ => some q.jobs
        | [] => none) := by
  constructor <;>
  · rcases bc with _ | l
    · simp only [Component.getCurrentReleasePipeline,
        Component.getNextReleasePipeline, selectedBranch,
        Component.getPipelineJobs, Component.getBranchPipelineJobs]
      rcases c.branches "current" with _ | ⟨p, ps⟩ <;>
        rcases c.branches "next" with _ | ⟨p', ps'⟩ <;>
          rcases hm : c.branches "main" with _ | ⟨q, qs⟩ <;> simp [hm]
    · rcases hb : lookupA l "branch" with _ | b
      · simp only [Component.getCurrentReleasePipeline,
          Component.getNextReleasePipeline, selectedBranch, hb,
          Component.getPipelineJobs, Component.getBranchPipelineJobs,
          Option.getD]
        rcases c.branches "current" with _ | ⟨p, ps⟩ <;>
          rcases c.branches "next" with _ | ⟨p', ps'⟩ <;>
            rcases hm : c.branches "main" with _ | ⟨q, qs⟩ <;> simp [hm]
      · simp only [Component.getCurrentReleasePipeline,
          Component.getNextReleasePipeline, selectedBranch, hb,
          Component.getPipelineJobs, Component.getBranchPipelineJobs,
          Option.getD]
        rcases hbb : c.branches b with _ | ⟨r, rs⟩ <;>
          rcases hm : c.branches "main" with _ | ⟨q, qs⟩ <;> simp [hm, hbb]

/-! ## ReportBuilder (qubes_g2g_report/report_builder.py) -/

/-- The timestamp-summary selection of ReportBuilder.generate_report
(lines 189-200): last_job_creation_time starts empty and, iterating the
stages in the fixed order BUILD, INSTALL, REPRO, is overwritten with the
creation time of each stage's job when present.  Both the absolute
(format_datetime) and the human-relative (format_timedelta) renderings are
produced from the one time selected here; the rendering itself is external
and not modelled. -/
def lastJobCreationTime (jobs : List (JobType × JobNode)) : Option Int :=
  [JobType.BUILD, JobType.INSTALL, JobType.REPRO].foldl
    (fun acc t =>
      match lookupA jobs t with
      | some j => some j.createdAt
      | none => acc)
    none

/-- Modelled from the spec sentence of C3: the most recent creationTime
among the entry's build, install and repro jobs. -/
def specMostRecentCreationTime (jobs : List (JobType × JobNode)) :
    Option Int :=
  ([JobType.BUILD, JobType.INSTALL, JobType.REPRO].filterMap
    fun t => (lookupA jobs t).map fun j => j.createdAt).foldl
    (fun acc x =>
      match acc with
      | none => some x
      | some y => some (if y ≤ x then x else y))
    none

/-- C3 counterexample build job: created later (time 100). -/
def c3Build : JobNode :=
  { name := "r4.2:build:fedora-40", statusText := "success",
    createdAt := 100, detailsPath := "" }

/-- C3 counterexample repro job: created earlier (time 50). -/
def c3Repro : JobNode :=
  { name := "r4.2:repro:fedora-40", statusText := "success",
    createdAt := 50, detailsPath := "" }

/-- C3 counterexample: with a build job at time 100 and a repro job at
time 50, the recorded summary is the repro job's time 50 (the last present
stage in iteration order), not the most recent time 100. -/
theorem c3_not_most_recent_counterexample :
    lastJobCreationTime [(JobType.BUILD, c3Build), (JobType.REPRO, c3Repro)]
      = some 50 ∧
    specMostRecentCreationTime
      [(JobType.BUILD, c3Build), (JobType.REPRO, c3Repro)] = some 100 ∧
    (50 : Int) ≠ 100 := by
  decide

/-- C3 amended: the timestamp summary recorded for a release entry is the
creationTime of its repro job when present, else of its install job, else
of its build job — the job of the last present stage in the fixed
iteration order build, install, repro — not necessarily the most recent
creationTime. -/
theorem c3_last_stage_in_order (jobs : List (JobType × JobNode)) :
    lastJobCreationTime jobs =
      match lookupA jobs JobType.REPRO with
      | some j => some j.createdAt
      | none =>
        match lookupA jobs JobType.INSTALL with
        | some j => some j.createdAt
        | none => (lookupA jobs JobType.BUILD).map fun j => j.createdAt := by
  rcases hB : lookupA jobs JobType.BUILD with _ | jb <;>
    rcases hI : lookupA jobs JobType.INSTALL with _ | ji <;>
      rcases hR : lookupA jobs JobType.REPRO with _ | jr <;>
        simp [lastJobCreationTime, hB, hI, hR]

/-- ReportBuilder.MAXIMUM_PAGINATION. -/
def MAXIMUM_PAGINATION : Nat := 20

/-- The fetch loop of ReportBuilder._get_components, with the opaque
GraphQL cursor chain linearized into consecutive page indices: each
iteration of 'for i in range(MAXIMUM_PAGINATION)' fetches the next page,
appends its component nodes and stops when hasNextPage is false. -/
def getComponentsLoop {α : Type} (pages : Nat → List α × Bool) :
    Nat → Nat → List α → List α
  | 0, _, acc => acc
  | n + 1, i, acc =>
    if (pages i).2 then getComponentsLoop pages n (i + 1) (acc ++ (pages i).1)
    else acc ++ (pages i).1

/-- ReportBuilder._get_components. -/
def getComponents {α : Type} (pages : Nat → List α × Bool) : List α :=
  getComponentsLoop pages MAXIMUM_PAGINATION 0 []

/-- A remote whose every page holds one component and always reports a
further page. -/
def c6Pages : Nat → List Nat × Bool := fun i => ([i], true)

/-- C6 counterexample: when the remote keeps reporting further pages, the
loop stops after MAXIMUM_PAGINATION pages, so the component of the 21st
reported page is missing from the result even though every fetched page
said a further page exists. -/
theorem c6_pagination_cap_counterexample :
    ((List.range 21).all fun i => (c6Pages i).2) = true ∧
    (c6Pages 20).1 = [20] ∧
    (20 : Nat) ∉ getComponents c6Pages := by
  refine ⟨by decide, by decide, ?_⟩
  intro h
  have : getComponents c6Pages = List.range 20 := by decide
  rw [this] at h
  simp [List.mem_range] at h

/-- The loop collects pages i, i+1, ..., i+k in order when the first
false hasNextPage within the fuel window is at offset k. -/
theorem getComponentsLoop_collects {α : Type} (pages : Nat → List α × Bool) :
    ∀ (k n i : Nat) (acc : List α), k < n →
      (∀ m, m < k → (pages (i + m)).2 = true) →
      (pages (i + k)).2 = false →
      getComponentsLoop pages n i acc
        = acc ++ ((List.range (k + 1)).map fun m => (pages (i + m)).1).flatten := by
  intro k
  induction k with
  | zero =>
    intro n i acc hk hbefore hstop
    rcases n with _ | n
    · omega
    · rw [getComponentsLoop]
      rw [Nat.add_zero] at hstop
      rw [if_neg (by simp [hstop])]
      rw [show List.range (0 + 1) = [0] from rfl]
      simp
  | succ k ih =>
    intro n i acc hk hbefore hstop
    rcases n with _ | n
    · omega
    · rw [getComponentsLoop]
      have h0 : (pages i).2 = true := by
        have := hbefore 0 (Nat.succ_pos k)
        simpa using this
      rw [if_pos h0]
      have hih := ih n (i + 1) (acc ++ (pages i).1) (by omega)
        (fun m hm => by
          have := hbefore (m + 1) (by omega)
          simpa [Nat.add_assoc, Nat.add_comm 1 m] using this)
        (by simpa [Nat.add_assoc, Nat.add_comm 1 k] using hstop)
      rw [hih]
      simp [List.range_succ_eq_map, List.map_map, Function.comp_def,
        List.append_assoc, Nat.succ_eq_add_one, Nat.add_assoc, Nat.add_comm,
        Nat.add_left_comm]

/-- C6 amended: pages are fetched one after another, accumulating every
page's component nodes in order, until the remote reports no further page
or MAXIMUM_PAGINATION pages have been fetched, whichever comes first; when
the remote reports no further page within the first MAXIMUM_PAGINATION
pages, the result is exactly the concatenation of all reported pages in
order. -/
theorem c6_pagination_collects_until_stop {α : Type}
    (pages : Nat → List α × Bool) (k : Nat) (hk : k < MAXIMUM_PAGINATION)
    (hbefore : ∀ m, m < k → (pages m).2 = true)
    (hstop : (pages k).2 = false) :
    getComponents pages
      = ((List.range (k + 1)).map fun m => (pages m).1).flatten := by
  have h := getComponentsLoop_collects pages k MAXIMUM_PAGINATION 0 []
    hk (fun m hm => by simpa using hbefore m hm) (by simpa using hstop)
  simpa using h

/-- A remote with two pages: page 0 reports a further page, page 1 stops. -/
def c6WitnessPages : Nat → List Nat × Bool := fun i => ([i], decide (i = 0))

/-- Witness of the amended C6: both pages' nodes appear, in order. -/
theorem c6_pagination_collects_until_stop_witness :
    (1 < MAXIMUM_PAGINATION ∧ (c6WitnessPages 1).2 = false) ∧
    getComponents c6WitnessPages = [0, 1] := by
  have h := c6_pagination_collects_until_stop c6WitnessPages 1 (by decide)
    (fun m hm => by
      have hm0 : m = 0 := by omega
      subst hm0
      rfl)
    (by decide)
  refine ⟨⟨by decide, by decide⟩, ?_⟩
  rw [h]
  decide

/-! ## Builder configuration (_get_builder_components_configuration) -/

/-- One entry of the YAML components list: a mapping (merged into the
result) or a value of another shape (skipped by the isinstance check). -/
inductive YamlEntry where
  | mapping (entries : List (String × CfgVal))
  | scalar

/-- The outcome of requests.get plus yaml.safe_load for the builder
configuration: notOk is a non-200 HTTP status (missing or unfetchable
file), unparsable a YAMLError, and parsed carries the document's
'components' value (None when the key is missing or null). -/
inductive ConfigFetchResult where
  | notOk
  | unparsable
  | parsed (components : Option (List YamlEntry))

/-- Python dict merge of one entry into the accumulator. -/
def mergeEntry (acc : List (String × CfgVal)) : YamlEntry →
    List (String × CfgVal)
  | .mapping entries => entries.foldl (fun a p => updA a p.1 p.2) acc
  | .scalar => acc

/-- ReportBuilder._get_builder_components_configuration, with the printed
warnings made explicit in the result: a non-200 response or a YAML parse
error yields a warning and an empty override mapping; the run does not
fail (the embedding is a total function, mirroring the source's catching
of both conditions instead of raising). -/
def getBuilderComponentsConfiguration (r : ConfigFetchResult) :
    List String × List (String × CfgVal) :=
  match r with
  | .notOk =>
    (["WARNING: Unable to retrieve builder configuration file"], [])
  | .unparsable =>
    (["WARNING: Unable to parse builder configuration file"], [])
  | .parsed comps =>
    match comps with
    | none => ([], [])
    | some entries => ([], entries.foldl mergeEntry [])

/-- C8: a missing, unfetchable or unparsable builder configuration yields
the empty override mapping together with a warning on the diagnostic
stream; the configuration problem never fails the run (the function
returns a value for every fetch outcome). -/
theorem c8_config_problem_warns_and_continues (r : ConfigFetchResult)
    (h : r = ConfigFetchResult.notOk ∨ r = ConfigFetchResult.unparsable) :
    (getBuilderComponentsConfiguration r).2 = [] ∧
    (getBuilderComponentsConfiguration r).1 ≠ [] := by
  rcases h with h | h <;> subst h <;>
    exact ⟨rfl, by simp [getBuilderComponentsConfiguration]⟩

/-- Witness of C8 at the non-200 outcome. -/
theorem c8_config_problem_warns_and_continues_witness :
    (ConfigFetchResult.notOk = ConfigFetchResult.notOk ∨
      ConfigFetchResult.notOk = ConfigFetchResult.unparsable) ∧
    (getBuilderComponentsConfiguration ConfigFetchResult.notOk).2 = [] ∧
    (getBuilderComponentsConfiguration ConfigFetchResult.notOk).1 ≠ [] :=
  ⟨Or.inl rfl,
    c8_config_problem_warns_and_continues ConfigFetchResult.notOk
      (Or.inl rfl)⟩

/-! ## Aggregation (_get_distros) -/

/-- The per-release tables built by ReportBuilder._get_distros:
distribution (None possible for a malformed job name) to component short
name to the entry dict holding 'jobs' and 'component'. -/
abbrev DTable :=
  List (Option String ×
    List (String × (List (JobType × JobNode) × Component)))

/-- The inner loop of _get_distros for one component and one release:
for each (distro_name, jobs) item of the resolver's output,
release_distros.setdefault(distro_name, dict()) and
release_distros[distro_name][component.short_name] = entry.  The source
guards the loop with 'if release_status:'; iterating an empty dict is the
same no-op. -/
def addReleaseStatus (tbl : DTable) (c : Component) (status : DistroMap) :
    DTable :=
  status.foldl (fun acc dj => upd2 acc dj.1 c.shortName (dj.2, c)) tbl

/-- The builder configuration passed for a component:
merged_config.get(short_name), with a stored None and a missing key both
giving None. -/
def componentConfig (cfg : List (String × CfgVal)) (c : Component) : CfgVal :=
  (lookupA cfg c.shortName).join

/-- ReportBuilder._get_distros: fold the components, resolving both
release tracks for each and inserting every resolved distribution's jobs
under the component's short name. -/
def getDistros (components : List Component)
    (currentRelease nextRelease : String)
    (cfgCur cfgNxt : List (String × CfgVal)) : DTable × DTable :=
  components.foldl
    (fun acc c =>
      (addReleaseStatus acc.1 c
        (c.getCurrentReleaseJobs currentRelease (componentConfig cfgCur c)),
       addReleaseStatus acc.2 c
        (c.getNextReleaseJobs nextRelease (componentConfig cfgNxt c))))
    ([], [])

theorem lookupA_eq_none_of_not_mem {K V : Type} [DecidableEq K]
    (l : List (K × V)) (k : K) (h : ¬ k ∈ l.map Prod.fst) :
    lookupA l k = none := by
  induction l with
  | nil => rfl
  | cons p rest ih =>
    obtain ⟨k0, v0⟩ := p
    simp only [List.map_cons, List.mem_cons] at h
    push_neg at h
    simp [lookupA, Ne.symm h.1, ih h.2]

theorem mem_map_fst_upd2 {A B C : Type} [DecidableEq A] [DecidableEq B]
    (m : List (A × List (B × C))) (a x : A) (b : B) (v : C) :
    x ∈ (upd2 m a b v).map Prod.fst ↔ x ∈ m.map Prod.fst ∨ x = a := by
  induction m with
  | nil => simp [upd2]
  | cons p rest ih =>
    obtain ⟨a0, inner⟩ := p
    by_cases h : a0 = a
    · subst h
      simp [upd2]
      tauto
    · simp [upd2, h, ih]
      tauto

theorem nodup_keys_upd2 {A B C : Type} [DecidableEq A] [DecidableEq B]
    (m : List (A × List (B × C))) (a : A) (b : B) (v : C)
    (h : (m.map Prod.fst).Nodup) :
    ((upd2 m a b v).map Prod.fst).Nodup := by
  induction m with
  | nil => simp [upd2]
  | cons p rest ih =>
    obtain ⟨a0, inner⟩ := p
    simp only [List.map_cons, List.nodup_cons] at h
    by_cases ha : a0 = a
    · subst ha
      simpa [upd2] using h
    · simp only [upd2, if_neg ha, List.map_cons, List.nodup_cons]
      refine ⟨?_, ih h.2⟩
      rw [mem_map_fst_upd2]
      rintro (hmem | heq)
      · exact h.1 hmem
      · exact ha heq

/-- The resolver's output dict has unique distribution keys. -/
theorem nodup_keys_getReleaseJobs (pj : Option (List JobNode))
    (rel : String) :
    ((getReleaseJobs pj rel).map Prod.fst).Nodup := by
  rcases pj with _ | jobs
  · simp [getReleaseJobs]
  · rw [getReleaseJobs]
    have h : ∀ (js : List JobNode) (m : DistroMap),
        (m.map Prod.fst).Nodup →
        ((js.foldl
          (fun m j =>
            if keepJob rel j then upd2 m j.distribution j.jobType j else m)
          m).map Prod.fst).Nodup := by
      intro js
      induction js with
      | nil => intro m hm; simpa using hm
      | cons j rest ih =>
        intro m hm
        rw [List.foldl_cons]
        by_cases hk : keepJob rel j = true
        · exact ih _ (by rw [if_pos hk]; exact nodup_keys_upd2 _ _ _ _ hm)
        · have hk' : keepJob rel j = false := by simpa using hk
          exact ih _ (by rw [hk', if_neg (by simp)]; exact hm)
    exact h jobs [] (by simp)

/-- The (distribution, shortName) entry after merging one component's
release status into the table: when the component resolved that
distribution and its short name is the looked-up one, its entry; else the
table's previous entry.  Requires the status dict's keys to be unique,
which nodup_keys_getReleaseJobs provides. -/
theorem look2_addReleaseStatus (c : Component) (d : Option String)
    (s : String) :
    ∀ (status : DistroMap) (tbl : DTable),
      ((status.map Prod.fst).Nodup) →
      look2 (addReleaseStatus tbl c status) d s =
        match lookupA status d with
        | some jobs =>
          if c.shortName = s then some (jobs, c) else look2 tbl d s
        | none => look2 tbl d s := by
  intro status
  induction status with
  | nil => intro tbl _; simp [addReleaseStatus, lookupA]
  | cons p rest ih =>
    obtain ⟨d0, js0⟩ := p
    intro tbl hnd
    simp only [List.map_cons, List.nodup_cons] at hnd
    have hstep : addReleaseStatus tbl c ((d0, js0) :: rest)
        = addReleaseStatus (upd2 tbl d0 c.shortName (js0, c)) c rest := by
      simp [addReleaseStatus]
    rw [hstep, ih _ hnd.2]
    by_cases hd : d0 = d
    · subst hd
      have hnone : lookupA rest d0 = none :=
        lookupA_eq_none_of_not_mem _ _ hnd.1
      have hlook : lookupA ((d0, js0) :: rest) d0 = some js0 := by
        simp [lookupA]
      rw [hnone, hlook]
      by_cases hs : c.shortName = s
      · subst hs
        simp [look2_upd2_self]
      · simp [hs, look2_upd2_ne _ _ _ _ _ _ (Or.inr (Ne.symm hs))]
    · have hcons : lookupA ((d0, js0) :: rest) d = lookupA rest d := by
        simp [lookupA, hd]
      rw [hcons]
      rcases hr : lookupA rest d with _ | jobs
      · exact look2_upd2_ne _ _ _ _ _ _ (Or.inl (Ne.symm hd))
      · by_cases hs : c.shortName = s
        · simp [hs]
        · simp [hs, look2_upd2_ne _ _ _ _ _ _ (Or.inl (Ne.symm hd))]

/-- The first table of the paired fold of _get_distros is the fold of the
current-release insertions alone. -/
theorem getDistros_fst_eq (components : List Component)
    (curRel nxtRel : String) (cfgCur cfgNxt : List (String × CfgVal)) :
    ∀ (acc : DTable × DTable),
      (components.foldl
        (fun acc c =>
          (addReleaseStatus acc.1 c
            (c.getCurrentReleaseJobs curRel (componentConfig cfgCur c)),
           addReleaseStatus acc.2 c
            (c.getNextReleaseJobs nxtRel (componentConfig cfgNxt c))))
        acc).1
      = components.foldl
          (fun t c =>
            addReleaseStatus t c
              (c.getCurrentReleaseJobs curRel (componentConfig cfgCur c)))
          acc.1 := by
  induction components with
  | nil => intro acc; rfl
  | cons c rest ih => intro acc; simpa using ih _

/-- The second table of the paired fold of _get_distros is the fold of the
next-release insertions alone. -/
theorem getDistros_snd_eq (components : List Component)
    (curRel nxtRel : String) (cfgCur cfgNxt : List (String × CfgVal)) :
    ∀ (acc : DTable × DTable),
      (components.foldl
        (fun acc c =>
          (addReleaseStatus acc.1 c
            (c.getCurrentReleaseJobs curRel (componentConfig cfgCur c)),
           addReleaseStatus acc.2 c
            (c.getNextReleaseJobs nxtRel (componentConfig cfgNxt c))))
        acc).2
      = components.foldl
          (fun t c =>
            addReleaseStatus t c
              (c.getNextReleaseJobs nxtRel (componentConfig cfgNxt c)))
          acc.2 := by
  induction components with
  | nil => intro acc; rfl
  | cons c rest ih => intro acc; simpa using ih _

/-- The (d, s) entry of a fold of per-component release statuses over any
initial table: the entry of the last component whose short name is s and
whose status resolved distribution d, else the initial entry. -/
theorem look2_fold_addReleaseStatus (f : Component → DistroMap)
    (hf : ∀ c, ((f c).map Prod.fst).Nodup) (d : Option String) (s : String) :
    ∀ (components : List Component) (tbl : DTable),
      look2 (components.foldl (fun t c => addReleaseStatus t c (f c)) tbl) d s
        = ((components.filter fun c =>
              (c.shortName == s) && (lookupA (f c) d).isSome).getLast?).elim
            (look2 tbl d s) (fun c => some ((lookupA (f c) d).getD [], c)) := by
  intro components
  induction components with
  | nil => intro tbl; simp
  | cons c rest ih =>
    intro tbl
    rw [List.foldl_cons, ih]
    rcases hfil : rest.filter
        (fun c => (c.shortName == s) && (lookupA (f c) d).isSome)
      with _ | ⟨k, ks⟩
    · by_cases hp : ((c.shortName == s) && (lookupA (f c) d).isSome) = true
      · have hp' := hp
        simp only [Bool.and_eq_true, beq_iff_eq, Option.isSome_iff_exists]
          at hp'
        obtain ⟨hs, jobs, hjobs⟩ := hp'
        simp [List.filter_cons, hp, hfil,
          look2_addReleaseStatus c d s (f c) tbl (hf c), hjobs, hs]
      · have hp' : ((c.shortName == s) && (lookupA (f c) d).isSome) = false :=
          by simpa using hp
        rw [look2_addReleaseStatus c d s (f c) tbl (hf c)]
        rcases hjobs : lookupA (f c) d with _ | jobs
        · simp [List.filter_cons, hp', hfil]
        · have hs : ¬ c.shortName = s := by
            intro hs
            rw [hjobs] at hp'
            simp [hs] at hp'
          simp [List.filter_cons, hp', hfil, hs]
    · obtain ⟨x, hx⟩ : ∃ x, (k :: ks).getLast? = some x :=
        ⟨(k :: ks).getLast (by simp), List.getLast?_eq_getLast _ (by simp)⟩
      by_cases hp : ((c.shortName == s) && (lookupA (f c) d).isSome) = true <;>
        simp [List.filter_cons, hp, hfil, hx,
          look2_addReleaseStatus c d s (f c) tbl (hf c)]

theorem elim_none_some {α β : Type} (o : Option α) (e : α → β) :
    o.elim none (fun c => some (e c)) = o.map e := by
  cases o <;> rfl

/-- C10: for each release track, the aggregated entry at (distribution,
short name) is exactly the entry of the last component in listing order
whose short name equals that name and which resolved jobs for that
distribution on that track.  In particular, when two distinct components
share a short name and both contribute to the same distribution and
track, the table holds a single entry under that short name: the later
component's, silently overwriting the earlier one. -/
theorem c10_short_name_collision_last_wins (components : List Component)
    (curRel nxtRel : String) (cfgCur cfgNxt : List (String × CfgVal))
    (d : Option String) (s : String) :
    (look2 (getDistros components curRel nxtRel cfgCur cfgNxt).1 d s
      = ((components.filter fun c =>
            (c.shortName == s) &&
            (lookupA (c.getCurrentReleaseJobs curRel (componentConfig cfgCur c))
              d).isSome).getLast?).map
          fun c =>
            ((lookupA (c.getCurrentReleaseJobs curRel (componentConfig cfgCur c))
              d).getD [], c)) ∧
    (look2 (getDistros components curRel nxtRel cfgCur cfgNxt).2 d s
      = ((components.filter fun c =>
            (c.shortName == s) &&
            (lookupA (c.getNextReleaseJobs nxtRel (componentConfig cfgNxt c))
              d).isSome).getLast?).map
          fun c =>
            ((lookupA (c.getNextReleaseJobs nxtRel (componentConfig cfgNxt c))
              d).getD [], c)) := by
  constructor
  · rw [getDistros, getDistros_fst_eq, look2_fold_addReleaseStatus
      (fun c => c.getCurrentReleaseJobs curRel (componentConfig cfgCur c))
      (fun c => nodup_keys_getReleaseJobs _ _) d s components []]
    exact elim_none_some _ _
  · rw [getDistros, getDistros_snd_eq, look2_fold_addReleaseStatus
      (fun c => c.getNextReleaseJobs nxtRel (componentConfig cfgNxt c))
      (fun c => nodup_keys_getReleaseJobs _ _) d s components []]
    exact elim_none_some _ _

/-! ## Flattening and sorting (generate_report)

The flattening loop keys the final table by distribution name and, inside
each distribution, by component short name.  Distribution keys are
modelled as strings: a None distribution from a malformed kept job name
cannot be compared by Python's sorted() and would abort the rendering, so
such inputs are outside this stage.  Only the key structure and the
timestamp summary are carried: the per-stage sub-entries and the
project_url field do not affect the ordering claims. -/

/-- The per-component release records of the final table. -/
abbrev RelMap := List (String × Option Int)

/-- The final nested status table. -/
abbrev QSTable := List (String × List (String × RelMap))

/-- Three-level dict update: qs.setdefault(a, dict());
qs[a].setdefault(b, dict()); qs[a][b][c] = v. -/
def upd3 {A B C D : Type} [DecidableEq A] [DecidableEq B] [DecidableEq C] :
    List (A × List (B × List (C × D))) → A → B → C → D →
      List (A × List (B × List (C × D)))
  | [], a, b, c, v => [(a, [(b, [(c, v)])])]
  | (a', inner) :: rest, a, b, c, v =>
    if a' = a then (a, upd2 inner b c v) :: rest
    else (a', inner) :: upd3 rest a b c v

/-- The per-release input of the flattening loop: distribution name to
component short name to the component's resolved jobs. -/
abbrev FTable := List (String × List (String × List (JobType × JobNode)))

/-- One release pass of the flattening loop of generate_report: for each
distribution and component of that release's table, record the release's
timestamp summary under qs[distro][component][release]. -/
def flattenRelease (qs : QSTable) (releaseKey : String) (tbl : FTable) :
    QSTable :=
  tbl.foldl
    (fun qs dc =>
      dc.2.foldl
        (fun qs ce => upd3 qs dc.1 ce.1 releaseKey (lastJobCreationTime ce.2))
        qs)
    qs

/-- Both release passes, in source order: current_release then
next_release. -/
def flattenStatus (cur nxt : FTable) : QSTable :=
  flattenRelease (flattenRelease [] "current_release" cur) "next_release" nxt

/-- generate_report lines 203-205: qubes_status =
dict(sorted(qubes_status.items())), then each distribution's inner dict
replaced by dict(sorted(...)).  sorted() on dict items compares the
(unique) keys. -/
def sortStatusTable (qs : QSTable) : QSTable :=
  (qs.mergeSort fun a b => decide (a.1 ≤ b.1)).map
    fun p => (p.1, p.2.mergeSort fun a b => decide (a.1 ≤ b.1))

/-- The aggregation pipeline from the per-release tables to the final
sorted status table. -/
def qubesStatus (cur nxt : FTable) : QSTable :=
  sortStatusTable (flattenStatus cur nxt)

/-- Sorting an association list by keys yields a key list sorted by the
linear order. -/
theorem sorted_keys_mergeSort {A B : Type} [LinearOrder A]
    (l : List (A × B)) :
    ((l.mergeSort fun a b => decide (a.1 ≤ b.1)).map Prod.fst).Sorted
      (· ≤ ·) := by
  have h := @List.sorted_mergeSort (A × B)
    (fun a b => decide (a.1 ≤ b.1))
    (fun a b c hab hbc => by
      simp only [decide_eq_true_eq] at hab hbc ⊢
      exact le_trans hab hbc)
    (fun a b => by
      rcases le_total a.1 b.1 with h | h <;> simp [h])
    l
  rw [List.Sorted, List.pairwise_map]
  exact h.imp fun hab => by simpa using hab

theorem mem_map_fst_upd3 {A B C D : Type} [DecidableEq A] [DecidableEq B]
    [DecidableEq C]
    (m : List (A × List (B × List (C × D)))) (a x : A) (b : B) (c : C)
    (v : D) :
    x ∈ (upd3 m a b c v).map Prod.fst ↔ x ∈ m.map Prod.fst ∨ x = a := by
  induction m with
  | nil => simp [upd3]
  | cons p rest ih =>
    obtain ⟨a0, inner⟩ := p
    by_cases h : a0 = a
    · subst h
      simp [upd3]
      tauto
    · simp [upd3, h, ih]
      tauto

/-- Key uniqueness at both levels of the flattened table. -/
def goodKeys (qs : QSTable) : Prop :=
  ((qs.map Prod.fst).Nodup) ∧ ∀ p ∈ qs, ((p.2.map Prod.fst).Nodup)

theorem goodKeys_upd3 (a b c : String) (v : Option Int) :
    ∀ qs : QSTable, goodKeys qs → goodKeys (upd3 qs a b c v) := by
  intro qs
  induction qs with
  | nil =>
    intro _
    constructor
    · simp [upd3]
    · intro p hp
      simp only [upd3, List.mem_singleton] at hp
      subst hp
      simp
  | cons p rest ih =>
    obtain ⟨a0, inner⟩ := p
    intro h
    obtain ⟨h1, h2⟩ := h
    simp only [List.map_cons, List.nodup_cons] at h1
    have hrest : goodKeys rest :=
      ⟨h1.2, fun p hp => h2 p (List.mem_cons_of_mem _ hp)⟩
    by_cases ha : a0 = a
    · subst ha
      have hstep : upd3 ((a0, inner) :: rest) a0 b c v
          = (a0, upd2 inner b c v) :: rest := by
        simp [upd3]
      constructor
      · rw [hstep]
        simpa using h1
      · intro p hp
        rw [hstep, List.mem_cons] at hp
        rcases hp with hp | hp
        · subst hp
          exact nodup_keys_upd2 _ _ _ _ (h2 (a0, inner) (by simp))
        · exact h2 p (List.mem_cons_of_mem _ hp)
    · have hstep : upd3 ((a0, inner) :: rest) a b c v
          = (a0, inner) :: upd3 rest a b c v := by
        simp [upd3, ha]
      constructor
      · rw [hstep, List.map_cons, List.nodup_cons]
        refine ⟨?_, (ih hrest).1⟩
        rw [mem_map_fst_upd3]
        rintro (hmem | heq)
        · exact h1.1 hmem
        · exact ha heq
      · intro p hp
        rw [hstep, List.mem_cons] at hp
        rcases hp with hp | hp
        · subst hp
          exact h2 (a0, inner) (by simp)
        · exact (ih hrest).2 p hp

theorem goodKeys_foldl {β : Type} (f : QSTable → β → QSTable)
    (hf : ∀ qs x, goodKeys qs → goodKeys (f qs x)) :
    ∀ (l : List β) (qs : QSTable), goodKeys qs → goodKeys (l.foldl f qs) := by
  intro l
  induction l with
  | nil => intro qs h; exact h
  | cons x rest ih => intro qs h; exact ih _ (hf qs x h)

theorem goodKeys_flattenRelease (releaseKey : String) (tbl : FTable) :
    ∀ qs : QSTable, goodKeys qs →
      goodKeys (flattenRelease qs releaseKey tbl) := by
  intro qs h
  rw [flattenRelease]
  exact goodKeys_foldl _
    (fun qs dc => goodKeys_foldl _
      (fun qs ce => goodKeys_upd3 _ _ _ _ qs) dc.2 qs)
    tbl qs h

theorem goodKeys_flattenStatus (cur nxt : FTable) :
    goodKeys (flattenStatus cur nxt) := by
  rw [flattenStatus]
  exact goodKeys_flattenRelease _ _ _
    (goodKeys_flattenRelease _ _ _ ⟨by simp, by simp⟩)

/-- C9: for every input, the final table's distribution keys are strictly
ascending, and inside every distribution the component keys are strictly
ascending.  (Determinism is definitional here: qubesStatus is a pure
function, so identical inputs give the identical table.) -/
theorem c9_sorted_output (cur nxt : FTable) :
    ((qubesStatus cur nxt).map Prod.fst).Sorted (· < ·) ∧
    ∀ p, p ∈ qubesStatus cur nxt → (p.2.map Prod.fst).Sorted (· < ·) := by
  have hgood := goodKeys_flattenStatus cur nxt
  constructor
  · have hle := sorted_keys_mergeSort (flattenStatus cur nxt)
    have hkeys : (qubesStatus cur nxt).map Prod.fst
        = ((flattenStatus cur nxt).mergeSort
            fun a b => decide (a.1 ≤ b.1)).map Prod.fst := by
      rw [qubesStatus, sortStatusTable, List.map_map]
      rfl
    rw [hkeys]
    refine hle.lt_of_le ?_
    exact ((List.mergeSort_perm (flattenStatus cur nxt) _).map
      Prod.fst).nodup_iff.mpr hgood.1
  · intro p hp
    rw [qubesStatus, sortStatusTable] at hp
    rw [List.mem_map] at hp
    obtain ⟨q, hq1, hq⟩ := hp
    have hqmem : q ∈ flattenStatus cur nxt :=
      (List.mergeSort_perm (flattenStatus cur nxt) _).subset hq1
    rw [← hq]
    refine (sorted_keys_mergeSort q.2).lt_of_le ?_
    exact ((List.mergeSort_perm q.2 _).map Prod.fst).nodup_iff.mpr
      (hgood.2 q hqmem)

/-- Witness of C9's membership part at a one-entry table. -/
theorem c9_sorted_output_witness :
    ("d1", [("c1", [("current_release", (none : Option Int))])])
        ∈ qubesStatus [("d1", [("c1", [])])] [] ∧
    ((["c1"] : List String).Sorted (· < ·)) := by
  have hflat : flattenStatus [("d1", [("c1", [])])] []
      = [("d1", [("c1", [("current_release", (none : Option Int))])])] := rfl
  have hmem : ("d1", [("c1", [("current_release", (none : Option Int))])])
      ∈ qubesStatus [("d1", [("c1", [])])] [] := by
    rw [qubesStatus, hflat, sortStatusTable,
      List.mergeSort_of_sorted (by simp), List.map_cons,
      List.mergeSort_of_sorted (by simp)]
    simp
  refine ⟨hmem, ?_⟩
  exact (c9_sorted_output [("d1", [("c1", [])])] []).2 _ hmem

end G2G
